import Mathlib

/-!
Verification of the text-to-document pipeline of the mathml-converter app
(`src/App.tsx`): the delimiter segmenter shared by the preview renderer,
the clipboard copy and the docx export; the HTML-attribute escaping and
its context-menu inverse; the paragraph assembler of `generateDocx`; and
the placeholder-substitution post-processing step.

Strings are modelled as `List Char`.  The two external converter libraries
(temml's `latexToMathML` composed with `mathmlToOmml`) are modelled as an
abstract parameter `conv : List Char → Bool → Option (List Char)`, `none`
standing for a thrown conversion error.
-/

namespace MathmlConv

/-- A span produced by the delimiter scan of `/\$\$([^$]+)\$\$|\$([^$]+)\$/g`
over the input: either a literal-text stretch between matches, or a formula
(block when matched by the doubled-marker alternative). -/
inductive Span where
  | text (value : List Char)
  | formula (source : List Char) (isBlock : Bool)
deriving DecidableEq, Repr

/-- The original delimited source text of a span (`match[0]` for formulas). -/
def Span.src : Span → List Char
  | .text v => v
  | .formula b true => '$' :: '$' :: (b ++ ['$', '$'])
  | .formula b false => '$' :: (b ++ ['$'])

def Span.isFormula : Span → Bool
  | .text _ => false
  | .formula _ _ => true

/-- Concatenation of the delimited sources of a span list. -/
def spanConcat (l : List Span) : List Char := (l.map Span.src).flatten

/-- Attempt of the first regex alternative `\$\$([^$]+)\$\$` at the current
position: doubled marker, a maximal nonempty run of non-marker characters,
doubled marker.  Returns the captured body and the rest of the input. -/
def tryBlock : List Char → Option (List Char × List Char)
  | '$' :: '$' :: rest =>
    (match rest.dropWhile (fun c => c ≠ '$') with
    | '$' :: '$' :: rest2 =>
        if (rest.takeWhile (fun c => c ≠ '$')).isEmpty then none
        else some (rest.takeWhile (fun c => c ≠ '$'), rest2)
    | _ => none)
  | _ => none

/-- Attempt of the second regex alternative `\$([^$]+)\$` at the current
position. -/
def tryInline : List Char → Option (List Char × List Char)
  | '$' :: rest =>
    (match rest.dropWhile (fun c => c ≠ '$') with
    | '$' :: rest2 =>
        if (rest.takeWhile (fun c => c ≠ '$')).isEmpty then none
        else some (rest.takeWhile (fun c => c ≠ '$'), rest2)
    | _ => none)
  | _ => none

theorem tryBlock_eq {l b r : List Char} (h : tryBlock l = some (b, r)) :
    l = '$' :: '$' :: (b ++ '$' :: '$' :: r) ∧ b ≠ [] := by
  unfold tryBlock at h
  split at h
  next rest =>
    split at h
    next rest2 heq =>
      split at h
      next => exact absurd h (by simp)
      next hne =>
        simp only [Option.some.injEq, Prod.mk.injEq] at h
        obtain ⟨hb, hr⟩ := h
        subst hb hr
        constructor
        · have hcat :=
            List.takeWhile_append_dropWhile (p := fun c => decide (c ≠ '$')) (l := rest)
          rw [heq] at hcat
          rw [hcat]
        · simpa [List.isEmpty_iff] using hne
    next => exact absurd h (by simp)
  next => exact absurd h (by simp)

theorem tryInline_eq {l b r : List Char} (h : tryInline l = some (b, r)) :
    l = '$' :: (b ++ '$' :: r) ∧ b ≠ [] := by
  unfold tryInline at h
  split at h
  next rest =>
    split at h
    next rest2 heq =>
      split at h
      next => exact absurd h (by simp)
      next hne =>
        simp only [Option.some.injEq, Prod.mk.injEq] at h
        obtain ⟨hb, hr⟩ := h
        subst hb hr
        constructor
        · have hcat :=
            List.takeWhile_append_dropWhile (p := fun c => decide (c ≠ '$')) (l := rest)
          rw [heq] at hcat
          rw [hcat]
        · simpa [List.isEmpty_iff] using hne
    next => exact absurd h (by simp)
  next => exact absurd h (by simp)

theorem tryBlock_length {l b r : List Char} (h : tryBlock l = some (b, r)) :
    r.length < l.length := by
  obtain ⟨hl, _⟩ := tryBlock_eq h
  subst hl; simp; omega

theorem tryInline_length {l b r : List Char} (h : tryInline l = some (b, r)) :
    r.length < l.length := by
  obtain ⟨hl, _⟩ := tryInline_eq h
  subst hl; simp; omega

/-- Flush of the accumulated literal text: empty stretches produce no span
(`if (textBefore) items.push(...)`). -/
def flushText (pending : List Char) (rest : List Span) : List Span :=
  if pending.isEmpty then rest else Span.text pending :: rest

/-- The scanning loop of `regex.exec`: at each position try the block
alternative first, then the inline one; on failure advance one character,
accumulating literal text.  Each successful match strictly shortens the
input, so a fuel of the input length always suffices; the fuel-exhausted
branch is unreachable. -/
def scanAux : Nat → List Char → List Char → List Span
  | _, pending, [] => flushText pending []
  | 0, pending, l => flushText (pending ++ l) []
  | fuel + 1, pending, c :: cs =>
    match tryBlock (c :: cs) with
    | some (body, rest) =>
        flushText pending (Span.formula body true :: scanAux fuel [] rest)
    | none =>
      match tryInline (c :: cs) with
      | some (body, rest) =>
          flushText pending (Span.formula body false :: scanAux fuel [] rest)
      | none => scanAux fuel (pending ++ [c]) cs

/-- The segmentation pass: the regex scan over `$$...$$` and `$...$` shared
by `parseForDisplay`, `generateDocx` and `handleCopy`. -/
def segment (s : List Char) : List Span := scanAux s.length [] s

theorem spanConcat_flushText (pending : List Char) (rest : List Span) :
    spanConcat (flushText pending rest) = pending ++ spanConcat rest := by
  unfold flushText
  split
  next h => simp_all [List.isEmpty_iff]
  next => simp [spanConcat, Span.src]

/-- Round-trip of the scanner: with enough fuel, the concatenated sources of
the produced spans rebuild the pending text followed by the unscanned
input. -/
theorem spanConcat_scanAux (fuel : Nat) :
    ∀ pending l : List Char, l.length ≤ fuel →
      spanConcat (scanAux fuel pending l) = pending ++ l := by
  induction fuel with
  | zero =>
    intro pending l hl
    have : l = [] := List.length_eq_zero.mp (Nat.le_zero.mp hl)
    subst this
    rw [scanAux, spanConcat_flushText]
    simp [spanConcat]
  | succ fuel ih =>
    intro pending l hl
    match l with
    | [] =>
      rw [scanAux, spanConcat_flushText]
      simp [spanConcat]
    | c :: cs =>
      rw [scanAux]
      split
      next body rest h =>
        obtain ⟨hl2, _⟩ := tryBlock_eq h
        have hrest : rest.length ≤ fuel := by
          have := tryBlock_length h
          simp only [List.length_cons] at this hl
          omega
        rw [spanConcat_flushText]
        simp only [spanConcat, List.map_cons, List.flatten_cons] at *
        rw [ih [] rest hrest, hl2]
        simp [Span.src]
      next =>
        split
        next body rest h2 =>
          obtain ⟨hl2, _⟩ := tryInline_eq h2
          have hrest : rest.length ≤ fuel := by
            have := tryInline_length h2
            simp only [List.length_cons] at this hl
            omega
          rw [spanConcat_flushText]
          simp only [spanConcat, List.map_cons, List.flatten_cons] at *
          rw [ih [] rest hrest, hl2]
          simp [Span.src]
        next =>
          have hcs : cs.length ≤ fuel := by simp at hl; omega
          rw [ih (pending ++ [c]) cs hcs]
          simp

/-- Round-trip of the segmentation pass. -/
theorem spanConcat_segment (s : List Char) : spanConcat (segment s) = s := by
  simpa using spanConcat_scanAux s.length [] s le_rfl

/-! ### String replacement primitives

`String.prototype.replace` with a global regex whose pattern is a literal:
for a single-character pattern this is a character-by-character expansion,
for a longer literal it is the left-to-right, non-overlapping scan that
never rescans a replacement. -/

/-- Expansion of every character of a string into a replacement string. -/
def expandMap (g : Char → List Char) : List Char → List Char
  | [] => []
  | c :: cs => g c ++ expandMap g cs

/-- JS `s.replace(/c/g, t)` for a single-character pattern `c`. -/
def replaceChar (c : Char) (t : List Char) (s : List Char) : List Char :=
  expandMap (fun x => if x = c then t else [x]) s

/-- JS `s.replace(/pat/g, rep)` for a literal multi-character pattern:
left-to-right scan, non-overlapping matches, replacements not rescanned. -/
def replaceStr (pat rep : List Char) : List Char → List Char
  | [] => []
  | c :: cs =>
    if pat.isPrefixOf (c :: cs) then
      rep ++ replaceStr pat rep (cs.drop (pat.length - 1))
    else c :: replaceStr pat rep cs
termination_by l => l.length
decreasing_by
  · simp only [List.length_cons]
    have := List.length_drop (pat.length - 1) cs
    omega
  · simp

/-- `input.replace(/\r\n/g, "\n")`: each CRLF pair collapses to a newline;
the scan is left-to-right and non-overlapping (structural form of
`replaceStr ['\r', '\n'] ['\n']`, see `normCRLF_eq_replaceStr`). -/
def normCRLF : List Char → List Char
  | [] => []
  | [c] => [c]
  | c :: d :: rest =>
    if c = '\r' ∧ d = '\n' then '\n' :: normCRLF rest
    else c :: normCRLF (d :: rest)

/-- Newline normalization at the top of `generateDocx`:
`input.replace(/\r\n/g, "\n").replace(/\r/g, "\n")`. -/
def normalizeNewlines (s : List Char) : List Char :=
  replaceChar '\r' ['\n'] (normCRLF s)

/-! ### Escaping (`escapeHtml`, the `data-latex` attribute, the context menu) -/

/-- `escapeHtml`: three sequential global replaces, `&` then `<` then `>`. -/
def escapeHtml (s : List Char) : List Char :=
  replaceChar '>' "&gt;".toList
    (replaceChar '<' "&lt;".toList
      (replaceChar '&' "&amp;".toList s))

/-- The `data-latex` attribute escaping used in `parseForDisplay`:
`escapeHtml(latex).replace(/"/g, "&quot;")`. -/
def escapeDataLatex (s : List Char) : List Char :=
  replaceChar '"' "&quot;".toList (escapeHtml s)

/-- The context-menu unescaping in `handleContextMenu`: `&quot;`, `&lt;`,
`&gt;`, then `&amp;`, in that order. -/
def unescapeDataLatex (s : List Char) : List Char :=
  replaceStr "&amp;".toList ['&']
    (replaceStr "&gt;".toList ['>']
      (replaceStr "&lt;".toList ['<']
        (replaceStr "&quot;".toList ['"'] s)))

/-! ### Content items and the docx assembler -/

/-- The composed external conversion used by `generateDocx`
(`latexToMathML` then `mathmlToOmml`); `none` models a thrown error. -/
abbrev Conv := List Char → Bool → Option (List Char)

/-- `ContentItem` of `generateDocx`. -/
inductive ContentItem where
  | text (value : List Char)
  | math (omml : List Char) (isBlock : Bool)
deriving DecidableEq, Repr

def ContentItem.isMath : ContentItem → Bool
  | .text _ => false
  | .math _ _ => true

/-- Conversion of one span into a content item: a formula degrades to a
text item holding `match[0]` when either conversion fails. -/
def itemOfSpan (conv : Conv) : Span → ContentItem
  | .text v => .text v
  | .formula body isBlock =>
    match conv body isBlock with
    | some omml => .math omml isBlock
    | none => .text (Span.src (.formula body isBlock))

/-- The item sequence `generateDocx` builds from its input: normalize the
newlines, run the regex scan, convert every formula span. -/
def generateDocxItems (conv : Conv) (input : List Char) : List ContentItem :=
  (segment (normalizeNewlines input)).map (itemOfSpan conv)

inductive Alignment where
  | left
  | center
deriving DecidableEq, Repr

/-- A paragraph of the intermediate tree handed to the docx builder: its
run texts in order (a run is either literal text or a placeholder token)
and its alignment. -/
structure Para where
  children : List (List Char)
  alignment : Alignment
deriving DecidableEq, Repr

/-- The `i`-th placeholder token: `__MATH_PLACEHOLDER_${i}__`. -/
def placeholderToken (i : Nat) : List Char :=
  "__MATH_PLACEHOLDER_".toList ++ (Nat.repr i).toList ++ "__".toList

/-- One segment of `value.split(/\n\n+/)` prepended with a character. -/
def consHead (c : Char) : List (List Char) → List (List Char)
  | [] => [[c]]
  | p :: ps => (c :: p) :: ps

/-- `value.split(/\n\n+/)`: split on maximal runs of two or more newlines.
The flag records that the scan is inside such a run (skipping its extra
newlines). -/
def splitParasAux : Bool → List Char → List (List Char)
  | _, [] => [[]]
  | true, c :: cs =>
    if c = '\n' then splitParasAux true cs
    else consHead c (splitParasAux false cs)
  | false, c :: cs =>
    if c = '\n' then
      match cs with
      | d :: cs2 =>
        if d = '\n' then [] :: splitParasAux true cs2
        else consHead c (splitParasAux false (d :: cs2))
      | [] => consHead c (splitParasAux false [])
    else consHead c (splitParasAux false cs)

def splitParas (value : List Char) : List (List Char) := splitParasAux false value

theorem splitParasAux_nil (flag : Bool) : splitParasAux flag [] = [[]] := by
  cases flag <;> rfl

theorem splitParasAux_true_cons (c : Char) (cs : List Char) :
    splitParasAux true (c :: cs) =
      if c = '\n' then splitParasAux true cs
      else consHead c (splitParasAux false cs) := rfl

theorem splitParasAux_false_single (c : Char) :
    splitParasAux false [c] =
      if c = '\n' then consHead c (splitParasAux false [])
      else consHead c (splitParasAux false []) := rfl

theorem splitParasAux_false_cons (c d : Char) (cs2 : List Char) :
    splitParasAux false (c :: d :: cs2) =
      if c = '\n' then
        (if d = '\n' then [] :: splitParasAux true cs2
         else consHead c (splitParasAux false (d :: cs2)))
      else consHead c (splitParasAux false (d :: cs2)) := rfl

theorem splitParasAux_false_not_nl {c : Char} (hc : c ≠ '\n') (cs : List Char) :
    splitParasAux false (c :: cs) = consHead c (splitParasAux false cs) := by
  match cs with
  | [] => rw [splitParasAux_false_single, if_neg hc]
  | d :: cs2 => rw [splitParasAux_false_cons, if_neg hc]

/-- The mutable state of the paragraph-building loop of `generateDocx`. -/
structure AsmState where
  paragraphs : List Para
  current : List (List Char)
  placeholderIndex : Nat
  mathPlaceholders : List (List Char × List Char)
deriving DecidableEq, Repr

def initState : AsmState := ⟨[], [], 0, []⟩

/-- `flushParagraph()`: emit the current items as a left-aligned paragraph,
or nothing when there are none. -/
def flushParagraph (st : AsmState) : AsmState :=
  if st.current.isEmpty then st
  else { st with paragraphs := st.paragraphs ++ [⟨st.current, .left⟩], current := [] }

/-- Append one split segment to the current paragraph: single newlines
become spaces, an empty result is dropped. -/
def pushPart (st : AsmState) (part : List Char) : AsmState :=
  if (part.map (fun c => if c = '\n' then ' ' else c)).isEmpty then st
  else { st with
    current := st.current ++ [part.map (fun c => if c = '\n' then ' ' else c)] }

/-- Processing of a text item: split on blank lines, flushing before every
segment after the first. -/
def processText (st : AsmState) (value : List Char) : AsmState :=
  match splitParas value with
  | [] => st
  | p :: ps => ps.foldl (fun s q => pushPart (flushParagraph s) q) (pushPart st p)

/-- One step of the `for (const item of items)` loop of `generateDocx`. -/
def processItem (st : AsmState) : ContentItem → AsmState
  | .text v => processText st v
  | .math omml true =>
    let st2 := flushParagraph st
    { st2 with
      paragraphs :=
        st2.paragraphs ++ [⟨[placeholderToken st2.placeholderIndex], .center⟩],
      placeholderIndex := st2.placeholderIndex + 1,
      mathPlaceholders :=
        st2.mathPlaceholders ++ [(placeholderToken st2.placeholderIndex, omml)] }
  | .math omml false =>
    { st with
      current := st.current ++ [placeholderToken st.placeholderIndex],
      placeholderIndex := st.placeholderIndex + 1,
      mathPlaceholders :=
        st.mathPlaceholders ++ [(placeholderToken st.placeholderIndex, omml)] }

/-- The document assembly of `generateDocx`: the ordered paragraph tree and
the placeholder map. -/
def assemble (conv : Conv) (input : List Char) :
    List Para × List (List Char × List Char) :=
  let final := flushParagraph ((generateDocxItems conv input).foldl processItem initState)
  (final.paragraphs, final.mathPlaceholders)

/-- The export pipeline around the external document builder and the
post-processing step: build the container from the paragraph tree, and
post-process it only when the placeholder map is nonempty
(`if (mathPlaceholders.size === 0) return blob`). -/
def exportDocx {β : Type} (builder : List Para → β)
    (post : β → List (List Char × List Char) → β) (conv : Conv)
    (input : List Char) : β :=
  if (assemble conv input).2.isEmpty then builder (assemble conv input).1
  else post (builder (assemble conv input).1) (assemble conv input).2

/-- Modelled from the spec: the Container Post-Processor ("find the
run-level text element whose entire text content is exactly that token and
replace the whole enclosing run element with the raw word-processor math
fragment").  The zip container and the XML serialization live in the
external docx/jszip libraries, so the substitution is modelled directly on
the paragraph tree: for every registered token in order, every run whose
whole text equals the token is replaced by the token's fragment. -/
def substituteRuns (paras : List Para)
    (placeholders : List (List Char × List Char)) : List Para :=
  placeholders.foldl
    (fun ps entry =>
      ps.map fun p =>
        ⟨p.children.map (fun r => if r = entry.1 then entry.2 else r), p.alignment⟩)
    paras

/-- The whole-document clipboard transformation of `handleCopy`: literal
slices kept verbatim, formulas replaced by their converted markup, failed
conversions by their delimited source; no escaping, no newline handling. -/
def handleCopyResult (conv : Conv) (input : List Char) : List Char :=
  ((segment input).map fun sp =>
    match sp with
    | .text v => v
    | .formula body isBlock =>
      match conv body isBlock with
      | some mathml => mathml
      | none => Span.src (.formula body isBlock)).flatten

/-! ### Lemmas about the replacement primitives -/

theorem expandMap_append (g : Char → List Char) (a b : List Char) :
    expandMap g (a ++ b) = expandMap g a ++ expandMap g b := by
  induction a with
  | nil => rfl
  | cons c cs ih => simp [expandMap, ih]

theorem expandMap_expandMap (g f : Char → List Char) (s : List Char) :
    expandMap g (expandMap f s) = expandMap (fun c => expandMap g (f c)) s := by
  induction s with
  | nil => rfl
  | cons c cs ih => simp [expandMap, expandMap_append, ih]

theorem expandMap_congr {f g : Char → List Char} (h : ∀ c, f c = g c) (s : List Char) :
    expandMap f s = expandMap g s := by
  induction s with
  | nil => rfl
  | cons c cs ih => simp [expandMap, ih, h c]

theorem expandMap_id (s : List Char) : expandMap (fun c => [c]) s = s := by
  induction s with
  | nil => rfl
  | cons c cs ih => simp [expandMap, ih]

theorem expandMap_eq_self {g : Char → List Char} (s : List Char)
    (h : ∀ c ∈ s, g c = [c]) : expandMap g s = s := by
  induction s with
  | nil => rfl
  | cons c cs ih =>
    rw [expandMap, h c (by simp), ih fun d hd => h d (by simp [hd])]
    rfl

/-- A literal match at the head is replaced and the scan resumes after it. -/
theorem replaceStr_head_match (p : Char) (pr rep rest : List Char) :
    replaceStr (p :: pr) rep ((p :: pr) ++ rest) = rep ++ replaceStr (p :: pr) rep rest := by
  rw [List.cons_append, replaceStr]
  have hpre : (p :: pr).isPrefixOf (p :: (pr ++ rest)) = true :=
    List.isPrefixOf_iff_prefix.mpr (by simpa using List.prefix_append (p :: pr) rest)
  rw [hpre]
  simp [List.drop_left]

/-- A position whose character differs from the pattern head is kept. -/
theorem replaceStr_skip_one {p c : Char} (pr rep rest : List Char) (h : c ≠ p) :
    replaceStr (p :: pr) rep (c :: rest) = c :: replaceStr (p :: pr) rep rest := by
  rw [replaceStr]
  have : (p :: pr).isPrefixOf (c :: rest) = false := by
    simp [List.isPrefixOf, Ne.symm h]
  rw [this]
  simp

/-- A position matching the pattern head but not its second character is
kept. -/
theorem replaceStr_skip_two {p q d : Char} (pr rep rest : List Char) (h : d ≠ q) :
    replaceStr (p :: q :: pr) rep (p :: d :: rest) =
      p :: replaceStr (p :: q :: pr) rep (d :: rest) := by
  rw [replaceStr]
  have : (p :: q :: pr).isPrefixOf (p :: d :: rest) = false := by
    simp [List.isPrefixOf, Ne.symm h]
  rw [this]
  simp

/-- A string free of the pattern's first character is left unchanged. -/
theorem replaceStr_no_head {p : Char} (pr rep : List Char) :
    ∀ s : List Char, p ∉ s → replaceStr (p :: pr) rep s = s := by
  intro s
  induction s with
  | nil => intro _; rw [replaceStr]
  | cons c cs ih =>
    intro h
    rw [replaceStr_skip_one pr rep cs (by simp at h; tauto)]
    rw [ih (by simp at h; tauto)]

/-- The structural CRLF collapse agrees with the generic literal-pattern
replacement. -/
theorem normCRLF_eq_replaceStr :
    ∀ (n : Nat) (s : List Char), s.length ≤ n →
      normCRLF s = replaceStr ['\r', '\n'] ['\n'] s := by
  intro n
  induction n with
  | zero =>
    intro s hs
    have : s = [] := List.length_eq_zero.mp (Nat.le_zero.mp hs)
    subst this
    rw [normCRLF, replaceStr]
  | succ n ih =>
    intro s hs
    match s with
    | [] => rw [normCRLF, replaceStr]
    | [c] =>
      rw [normCRLF, replaceStr]
      have hp : ((['\r', '\n'] : List Char).isPrefixOf [c]) = false := by
        simp [List.isPrefixOf]
      simp [hp, replaceStr]
    | c :: d :: rest =>
      have hlen : (d :: rest).length ≤ n := by
        simp only [List.length_cons] at hs ⊢; omega
      have hlen2 : rest.length ≤ n := by
        simp only [List.length_cons] at hs; omega
      rw [normCRLF]
      by_cases hcd : c = '\r' ∧ d = '\n'
      · obtain ⟨hc, hd⟩ := hcd
        subst hc hd
        rw [if_pos ⟨rfl, rfl⟩]
        show '\n' :: normCRLF rest =
          replaceStr ['\r', '\n'] ['\n'] (['\r', '\n'] ++ rest)
        rw [replaceStr_head_match, ih rest hlen2]
        rfl
      · rw [if_neg hcd]
        rcases Decidable.not_and_iff_or_not.mp hcd with hc | hd
        · rw [replaceStr_skip_one _ _ _ hc, ih (d :: rest) hlen]
        · rcases Decidable.em (c = '\r') with hc | hc
          · subst hc
            rw [replaceStr_skip_two _ _ _ hd, ih (d :: rest) hlen]
          · rw [replaceStr_skip_one _ _ _ hc, ih (d :: rest) hlen]

/-- Newline normalization leaves a carriage-return-free string unchanged. -/
theorem normalizeNewlines_eq_self {s : List Char} (h : '\r' ∉ s) :
    normalizeNewlines s = s := by
  unfold normalizeNewlines
  rw [normCRLF_eq_replaceStr s.length s le_rfl, replaceStr_no_head _ _ s h]
  exact expandMap_eq_self s fun c hc => by
    have : c ≠ '\r' := fun he => h (he ▸ hc)
    simp [this]

/-! ### The attribute-escaping round trip (claim C9 machinery) -/

/-- The combined character table of the `data-latex` escaping: `&`, `<`,
`>` via `escapeHtml`, then `"`. -/
def escAttrChar (c : Char) : List Char :=
  if c = '&' then "&amp;".toList
  else if c = '<' then "&lt;".toList
  else if c = '>' then "&gt;".toList
  else if c = '"' then "&quot;".toList
  else [c]

/-- The character table after the `&quot;` unescape pass. -/
def postQuot (c : Char) : List Char :=
  if c = '&' then "&amp;".toList
  else if c = '<' then "&lt;".toList
  else if c = '>' then "&gt;".toList
  else [c]

/-- The character table after the `&lt;` unescape pass. -/
def postLt (c : Char) : List Char :=
  if c = '&' then "&amp;".toList
  else if c = '>' then "&gt;".toList
  else [c]

/-- The character table after the `&gt;` unescape pass. -/
def postGt (c : Char) : List Char :=
  if c = '&' then "&amp;".toList
  else [c]

/-- The four sequential escape replaces collapse to one character map:
every `&` of the escaped output starts one of the four entity blocks. -/
theorem escapeDataLatex_eq_expandMap (s : List Char) :
    escapeDataLatex s = expandMap escAttrChar s := by
  unfold escapeDataLatex escapeHtml replaceChar
  rw [expandMap_expandMap, expandMap_expandMap, expandMap_expandMap]
  refine expandMap_congr (fun c => ?_) s
  by_cases h1 : c = '&'
  · subst h1; decide
  by_cases h2 : c = '<'
  · subst h2; decide
  by_cases h3 : c = '>'
  · subst h3; decide
  by_cases h4 : c = '"'
  · subst h4; decide
  simp [escAttrChar, h1, h2, h3, h4, expandMap]

theorem unquot_pass (s : List Char) :
    replaceStr "&quot;".toList ['"'] (expandMap escAttrChar s) =
      expandMap postQuot s := by
  induction s with
  | nil => rw [expandMap, expandMap, replaceStr]
  | cons c cs ih =>
    rw [expandMap, expandMap]
    by_cases h1 : c = '&'
    · subst h1
      show replaceStr ('&' :: 'q' :: "uot;".toList) ['"']
          ('&' :: 'a' :: 'm' :: 'p' :: ';' :: expandMap escAttrChar cs) =
        '&' :: 'a' :: 'm' :: 'p' :: ';' :: expandMap postQuot cs
      rw [replaceStr_skip_two _ _ _ (by decide), replaceStr_skip_one _ _ _ (by decide),
        replaceStr_skip_one _ _ _ (by decide), replaceStr_skip_one _ _ _ (by decide),
        replaceStr_skip_one _ _ _ (by decide)]
      exact congrArg (fun t => '&' :: 'a' :: 'm' :: 'p' :: ';' :: t) ih
    by_cases h2 : c = '<'
    · subst h2
      show replaceStr ('&' :: 'q' :: "uot;".toList) ['"']
          ('&' :: 'l' :: 't' :: ';' :: expandMap escAttrChar cs) =
        '&' :: 'l' :: 't' :: ';' :: expandMap postQuot cs
      rw [replaceStr_skip_two _ _ _ (by decide), replaceStr_skip_one _ _ _ (by decide),
        replaceStr_skip_one _ _ _ (by decide), replaceStr_skip_one _ _ _ (by decide)]
      exact congrArg (fun t => '&' :: 'l' :: 't' :: ';' :: t) ih
    by_cases h3 : c = '>'
    · subst h3
      show replaceStr ('&' :: 'q' :: "uot;".toList) ['"']
          ('&' :: 'g' :: 't' :: ';' :: expandMap escAttrChar cs) =
        '&' :: 'g' :: 't' :: ';' :: expandMap postQuot cs
      rw [replaceStr_skip_two _ _ _ (by decide), replaceStr_skip_one _ _ _ (by decide),
        replaceStr_skip_one _ _ _ (by decide), replaceStr_skip_one _ _ _ (by decide)]
      exact congrArg (fun t => '&' :: 'g' :: 't' :: ';' :: t) ih
    by_cases h4 : c = '"'
    · subst h4
      show replaceStr ('&' :: "quot;".toList) ['"']
          (('&' :: "quot;".toList) ++ expandMap escAttrChar cs) =
        '"' :: expandMap postQuot cs
      rw [replaceStr_head_match]
      exact congrArg (fun t => '"' :: t) ih
    · simp only [escAttrChar, postQuot, if_neg h1, if_neg h2, if_neg h3, if_neg h4]
      rw [List.singleton_append, List.singleton_append]
      show replaceStr ('&' :: "quot;".toList) ['"'] (c :: expandMap escAttrChar cs) =
        c :: expandMap postQuot cs
      rw [replaceStr_skip_one _ _ _ h1]
      exact congrArg (fun t => c :: t) ih

theorem unlt_pass (s : List Char) :
    replaceStr "&lt;".toList ['<'] (expandMap postQuot s) = expandMap postLt s := by
  induction s with
  | nil => rw [expandMap, expandMap, replaceStr]
  | cons c cs ih =>
    rw [expandMap, expandMap]
    by_cases h1 : c = '&'
    · subst h1
      show replaceStr ('&' :: 'l' :: "t;".toList) ['<']
          ('&' :: 'a' :: 'm' :: 'p' :: ';' :: expandMap postQuot cs) =
        '&' :: 'a' :: 'm' :: 'p' :: ';' :: expandMap postLt cs
      rw [replaceStr_skip_two _ _ _ (by decide), replaceStr_skip_one _ _ _ (by decide),
        replaceStr_skip_one _ _ _ (by decide), replaceStr_skip_one _ _ _ (by decide),
        replaceStr_skip_one _ _ _ (by decide)]
      exact congrArg (fun t => '&' :: 'a' :: 'm' :: 'p' :: ';' :: t) ih
    by_cases h2 : c = '<'
    · subst h2
      show replaceStr ('&' :: "lt;".toList) ['<']
          (('&' :: "lt;".toList) ++ expandMap postQuot cs) =
        '<' :: expandMap postLt cs
      rw [replaceStr_head_match]
      exact congrArg (fun t => '<' :: t) ih
    by_cases h3 : c = '>'
    · subst h3
      show replaceStr ('&' :: 'l' :: "t;".toList) ['<']
          ('&' :: 'g' :: 't' :: ';' :: expandMap postQuot cs) =
        '&' :: 'g' :: 't' :: ';' :: expandMap postLt cs
      rw [replaceStr_skip_two _ _ _ (by decide), replaceStr_skip_one _ _ _ (by decide),
        replaceStr_skip_one _ _ _ (by decide), replaceStr_skip_one _ _ _ (by decide)]
      exact congrArg (fun t => '&' :: 'g' :: 't' :: ';' :: t) ih
    · simp only [postQuot, postLt, if_neg h1, if_neg h2, if_neg h3]
      rw [List.singleton_append, List.singleton_append]
      show replaceStr ('&' :: "lt;".toList) ['<'] (c :: expandMap postQuot cs) =
        c :: expandMap postLt cs
      rw [replaceStr_skip_one _ _ _ h1]
      exact congrArg (fun t => c :: t) ih

theorem ungt_pass (s : List Char) :
    replaceStr "&gt;".toList ['>'] (expandMap postLt s) = expandMap postGt s := by
  induction s with
  | nil => rw [expandMap, expandMap, replaceStr]
  | cons c cs ih =>
    rw [expandMap, expandMap]
    by_cases h1 : c = '&'
    · subst h1
      show replaceStr ('&' :: 'g' :: "t;".toList) ['>']
          ('&' :: 'a' :: 'm' :: 'p' :: ';' :: expandMap postLt cs) =
        '&' :: 'a' :: 'm' :: 'p' :: ';' :: expandMap postGt cs
      rw [replaceStr_skip_two _ _ _ (by decide), replaceStr_skip_one _ _ _ (by decide),
        replaceStr_skip_one _ _ _ (by decide), replaceStr_skip_one _ _ _ (by decide),
        replaceStr_skip_one _ _ _ (by decide)]
      exact congrArg (fun t => '&' :: 'a' :: 'm' :: 'p' :: ';' :: t) ih
    by_cases h2 : c = '>'
    · subst h2
      show replaceStr ('&' :: "gt;".toList) ['>']
          (('&' :: "gt;".toList) ++ expandMap postLt cs) =
        '>' :: expandMap postGt cs
      rw [replaceStr_head_match]
      exact congrArg (fun t => '>' :: t) ih
    · simp only [postLt, postGt, if_neg h1, if_neg h2]
      rw [List.singleton_append, List.singleton_append]
      show replaceStr ('&' :: "gt;".toList) ['>'] (c :: expandMap postLt cs) =
        c :: expandMap postGt cs
      rw [replaceStr_skip_one _ _ _ h1]
      exact congrArg (fun t => c :: t) ih

theorem unamp_pass (s : List Char) :
    replaceStr "&amp;".toList ['&'] (expandMap postGt s) = s := by
  induction s with
  | nil => rw [expandMap, replaceStr]
  | cons c cs ih =>
    rw [expandMap]
    by_cases h1 : c = '&'
    · subst h1
      show replaceStr ('&' :: "amp;".toList) ['&']
          (('&' :: "amp;".toList) ++ expandMap postGt cs) = '&' :: cs
      rw [replaceStr_head_match]
      exact congrArg (fun t => '&' :: t) ih
    · simp only [postGt, if_neg h1]
      rw [List.singleton_append]
      show replaceStr ('&' :: "amp;".toList) ['&'] (c :: expandMap postGt cs) = c :: cs
      rw [replaceStr_skip_one _ _ _ h1]
      exact congrArg (fun t => c :: t) ih

/-! ### Distinctness of placeholder tokens -/

/-- Big-endian decimal rendering with an accumulator: the recursion of
`Nat.toDigitsCore` freed of its fuel argument. -/
def reprAux (n : Nat) (acc : List Char) : List Char :=
  if n < 10 then Nat.digitChar n :: acc
  else reprAux (n / 10) (Nat.digitChar (n % 10) :: acc)
termination_by n
decreasing_by
  exact Nat.div_lt_self (by omega) (by norm_num)

theorem reprAux_eq (n : Nat) (acc : List Char) :
    reprAux n acc =
      if n < 10 then Nat.digitChar n :: acc
      else reprAux (n / 10) (Nat.digitChar (n % 10) :: acc) := by
  rw [reprAux]

theorem toDigitsCore_eq_reprAux :
    ∀ fuel n acc, n < fuel → Nat.toDigitsCore 10 fuel n acc = reprAux n acc := by
  intro fuel
  induction fuel with
  | zero => intro n acc h; omega
  | succ fuel ih =>
    intro n acc h
    rw [Nat.toDigitsCore]
    by_cases h10 : n < 10
    · have hz : n / 10 = 0 := Nat.div_eq_of_lt h10
      rw [reprAux_eq n acc, if_pos h10]
      simp [hz, Nat.mod_eq_of_lt h10]
    · have hz : ¬ n / 10 = 0 := by
        intro hzero
        exact h10 (by omega)
      have hlt : n / 10 < fuel := by
        have hd : n / 10 < n := Nat.div_lt_self (by omega) (by norm_num)
        omega
      rw [reprAux_eq n acc, if_neg h10, if_neg hz]
      exact ih (n / 10) _ hlt

theorem reprAux_acc (n : Nat) :
    ∀ acc, reprAux n acc = reprAux n [] ++ acc := by
  induction n using Nat.strong_induction_on with
  | _ n ih =>
    intro acc
    by_cases h10 : n < 10
    · rw [reprAux_eq n acc, if_pos h10, reprAux_eq n [], if_pos h10]
      rfl
    · have hlt : n / 10 < n := Nat.div_lt_self (by omega) (by norm_num)
      rw [reprAux_eq n acc, if_neg h10, reprAux_eq n [], if_neg h10,
        ih _ hlt (Nat.digitChar (n % 10) :: acc), ih _ hlt [Nat.digitChar (n % 10)]]
      simp

/-- The value of a decimal digit character produced by `Nat.digitChar`. -/
def digitVal (c : Char) : Nat :=
  if c = '0' then 0 else if c = '1' then 1 else if c = '2' then 2
  else if c = '3' then 3 else if c = '4' then 4 else if c = '5' then 5
  else if c = '6' then 6 else if c = '7' then 7 else if c = '8' then 8
  else if c = '9' then 9 else 0

theorem digitVal_digitChar {d : Nat} (h : d < 10) :
    digitVal (Nat.digitChar d) = d := by
  interval_cases d <;> decide

/-- Decimal interpretation of a digit string. -/
def listVal (l : List Char) : Nat := l.foldl (fun a c => 10 * a + digitVal c) 0

theorem listVal_reprAux (n : Nat) : listVal (reprAux n []) = n := by
  induction n using Nat.strong_induction_on with
  | _ n ih =>
    by_cases h10 : n < 10
    · rw [reprAux_eq n [], if_pos h10]
      simp [listVal, digitVal_digitChar h10]
    · have hlt : n / 10 < n := Nat.div_lt_self (by omega) (by norm_num)
      rw [reprAux_eq n [], if_neg h10, reprAux_acc (n / 10)]
      have : listVal (reprAux (n / 10) [] ++ [Nat.digitChar (n % 10)]) =
          10 * listVal (reprAux (n / 10) []) + digitVal (Nat.digitChar (n % 10)) := by
        simp [listVal, List.foldl_append]
      rw [this, ih _ hlt, digitVal_digitChar (Nat.mod_lt n (by norm_num))]
      omega

theorem natRepr_inj {m n : Nat} (h : Nat.repr m = Nat.repr n) : m = n := by
  have hdig : Nat.toDigits 10 m = Nat.toDigits 10 n := by
    have := congrArg String.data h
    simpa [Nat.repr, List.asString] using this
  have hm : Nat.toDigits 10 m = reprAux m [] :=
    toDigitsCore_eq_reprAux (m + 1) m [] (by omega)
  have hn : Nat.toDigits 10 n = reprAux n [] :=
    toDigitsCore_eq_reprAux (n + 1) n [] (by omega)
  have := congrArg listVal (hm ▸ hn ▸ hdig)
  rwa [listVal_reprAux, listVal_reprAux] at this

theorem placeholderToken_inj {i j : Nat}
    (h : placeholderToken i = placeholderToken j) : i = j := by
  unfold placeholderToken at h
  rw [List.append_assoc, List.append_assoc] at h
  have h1 := List.append_cancel_left h
  have h2 := List.append_cancel_right h1
  exact natRepr_inj (by
    apply congrArg List.asString at h2
    simpa [List.asString] using h2)

/-! ### The paragraph-building loop: an accounting of runs and placeholders -/

/-- `part.replace(/\n/g, " ")` applied to one split segment. -/
def cleanPart (part : List Char) : List Char :=
  part.map (fun c => if c = '\n' then ' ' else c)

/-- The nonempty cleaned segments a text item contributes as runs. -/
def textRuns (v : List Char) : List (List Char) :=
  ((splitParas v).map cleanPart).filter (fun r => !r.isEmpty)

/-- All run texts of a paragraph list, in order. -/
def runsOf (paras : List Para) : List (List Char) :=
  (paras.map Para.children).flatten

/-- All run texts held by an assembly state (emitted or still current). -/
def allRuns (st : AsmState) : List (List Char) :=
  runsOf st.paragraphs ++ st.current

/-- The runs one item contributes, given the next placeholder ordinal. -/
def itemRuns (idx : Nat) : ContentItem → List (List Char)
  | .text v => textRuns v
  | .math _ _ => [placeholderToken idx]

/-- The runs an item list contributes, threading the placeholder ordinal. -/
def itemsRuns (idx : Nat) : List ContentItem → List (List Char)
  | [] => []
  | it :: rest => itemRuns idx it ++ itemsRuns (idx + if it.isMath then 1 else 0) rest

/-- The placeholder entries an item list registers, threading the ordinal. -/
def itemsPh (idx : Nat) : List ContentItem → List (List Char × List Char)
  | [] => []
  | .text _ :: rest => itemsPh idx rest
  | .math omml _ :: rest => (placeholderToken idx, omml) :: itemsPh (idx + 1) rest

/-- The number of math items (each registers exactly one placeholder). -/
def mathCount (items : List ContentItem) : Nat :=
  (items.filter ContentItem.isMath).length

theorem flushParagraph_placeholderIndex (st : AsmState) :
    (flushParagraph st).placeholderIndex = st.placeholderIndex := by
  unfold flushParagraph; split <;> rfl

theorem flushParagraph_mathPlaceholders (st : AsmState) :
    (flushParagraph st).mathPlaceholders = st.mathPlaceholders := by
  unfold flushParagraph; split <;> rfl

theorem flushParagraph_current (st : AsmState) :
    (flushParagraph st).current = [] := by
  unfold flushParagraph
  split
  next h => exact List.isEmpty_iff.mp h
  next => rfl

theorem runsOf_append (a b : List Para) : runsOf (a ++ b) = runsOf a ++ runsOf b := by
  simp [runsOf]

theorem allRuns_flushParagraph (st : AsmState) :
    allRuns (flushParagraph st) = allRuns st := by
  unfold flushParagraph
  split
  next h => rfl
  next => simp [allRuns, runsOf_append, runsOf]

theorem pushPart_placeholderIndex (st : AsmState) (part : List Char) :
    (pushPart st part).placeholderIndex = st.placeholderIndex := by
  unfold pushPart; split <;> rfl

theorem pushPart_mathPlaceholders (st : AsmState) (part : List Char) :
    (pushPart st part).mathPlaceholders = st.mathPlaceholders := by
  unfold pushPart; split <;> rfl

theorem allRuns_pushPart (st : AsmState) (part : List Char) :
    allRuns (pushPart st part) =
      allRuns st ++ if (cleanPart part).isEmpty then [] else [cleanPart part] := by
  unfold pushPart
  split
  next h => simp [cleanPart, h]
  next h => simp [cleanPart, h, allRuns]

theorem processParts_placeholderIndex (ps : List (List Char)) :
    ∀ st : AsmState,
      (ps.foldl (fun s q => pushPart (flushParagraph s) q) st).placeholderIndex =
        st.placeholderIndex := by
  induction ps with
  | nil => intro st; rfl
  | cons q ps ih =>
    intro st
    rw [List.foldl_cons, ih, pushPart_placeholderIndex, flushParagraph_placeholderIndex]

theorem processParts_mathPlaceholders (ps : List (List Char)) :
    ∀ st : AsmState,
      (ps.foldl (fun s q => pushPart (flushParagraph s) q) st).mathPlaceholders =
        st.mathPlaceholders := by
  induction ps with
  | nil => intro st; rfl
  | cons q ps ih =>
    intro st
    rw [List.foldl_cons, ih, pushPart_mathPlaceholders, flushParagraph_mathPlaceholders]

theorem processParts_runs (ps : List (List Char)) :
    ∀ st : AsmState,
      allRuns (ps.foldl (fun s q => pushPart (flushParagraph s) q) st) =
        allRuns st ++ ((ps.map cleanPart).filter fun r => !r.isEmpty) := by
  induction ps with
  | nil => intro st; simp
  | cons q ps ih =>
    intro st
    rw [List.foldl_cons, ih, allRuns_pushPart, allRuns_flushParagraph]
    by_cases h : (cleanPart q).isEmpty <;> simp [h]

theorem processText_placeholderIndex (st : AsmState) (v : List Char) :
    (processText st v).placeholderIndex = st.placeholderIndex := by
  unfold processText
  split
  · rfl
  · rw [processParts_placeholderIndex, pushPart_placeholderIndex]

theorem processText_mathPlaceholders (st : AsmState) (v : List Char) :
    (processText st v).mathPlaceholders = st.mathPlaceholders := by
  unfold processText
  split
  · rfl
  · rw [processParts_mathPlaceholders, pushPart_mathPlaceholders]

theorem allRuns_processText (st : AsmState) (v : List Char) :
    allRuns (processText st v) = allRuns st ++ textRuns v := by
  unfold processText
  split
  next heq => rw [textRuns, heq]; simp
  next p ps heq =>
    rw [processParts_runs, allRuns_pushPart, textRuns, heq]
    by_cases h : (cleanPart p).isEmpty <;> simp [h]

theorem processItem_placeholderIndex (st : AsmState) (it : ContentItem) :
    (processItem st it).placeholderIndex =
      st.placeholderIndex + if it.isMath then 1 else 0 := by
  match it with
  | .text v => simp [processItem, processText_placeholderIndex, ContentItem.isMath]
  | .math omml true =>
    simp [processItem, ContentItem.isMath, flushParagraph_placeholderIndex]
  | .math omml false => simp [processItem, ContentItem.isMath]

theorem processItem_mathPlaceholders (st : AsmState) (it : ContentItem) :
    (processItem st it).mathPlaceholders =
      st.mathPlaceholders ++
        match it with
        | .math omml _ => [(placeholderToken st.placeholderIndex, omml)]
        | .text _ => [] := by
  match it with
  | .text v => simp [processItem, processText_mathPlaceholders]
  | .math omml true =>
    simp [processItem, flushParagraph_mathPlaceholders, flushParagraph_placeholderIndex]
  | .math omml false => simp [processItem]

theorem allRuns_processItem (st : AsmState) (it : ContentItem) :
    allRuns (processItem st it) = allRuns st ++ itemRuns st.placeholderIndex it := by
  match it with
  | .text v => simp [processItem, allRuns_processText, itemRuns]
  | .math omml true =>
    have h1 := allRuns_flushParagraph st
    have h2 := flushParagraph_current st
    have h3 := flushParagraph_placeholderIndex st
    simp only [processItem, itemRuns]
    simp only [allRuns, runsOf_append, runsOf] at h1 ⊢
    rw [h2] at h1 ⊢
    simp at h1 ⊢
    rw [h1, h3, List.append_assoc]
  | .math omml false => simp [processItem, itemRuns, allRuns]

theorem foldl_processItem_placeholderIndex (items : List ContentItem) :
    ∀ st : AsmState,
      (items.foldl processItem st).placeholderIndex =
        st.placeholderIndex + mathCount items := by
  induction items with
  | nil => intro st; simp [mathCount]
  | cons it rest ih =>
    intro st
    rw [List.foldl_cons, ih, processItem_placeholderIndex]
    match it with
    | .text v => simp [mathCount, ContentItem.isMath, List.filter]
    | .math omml b => simp [mathCount, ContentItem.isMath, List.filter]; omega

theorem foldl_processItem_mathPlaceholders (items : List ContentItem) :
    ∀ st : AsmState,
      (items.foldl processItem st).mathPlaceholders =
        st.mathPlaceholders ++ itemsPh st.placeholderIndex items := by
  induction items with
  | nil => intro st; simp [itemsPh]
  | cons it rest ih =>
    intro st
    rw [List.foldl_cons, ih, processItem_mathPlaceholders, processItem_placeholderIndex]
    match it with
    | .text v => simp [itemsPh, ContentItem.isMath]
    | .math omml b => simp [itemsPh, ContentItem.isMath]

theorem foldl_processItem_runs (items : List ContentItem) :
    ∀ st : AsmState,
      allRuns (items.foldl processItem st) =
        allRuns st ++ itemsRuns st.placeholderIndex items := by
  induction items with
  | nil => intro st; simp [itemsRuns]
  | cons it rest ih =>
    intro st
    rw [List.foldl_cons, ih, allRuns_processItem, processItem_placeholderIndex]
    rw [itemsRuns]
    simp

/-- The placeholder map produced by assembly, described item by item. -/
theorem assemble_snd (conv : Conv) (input : List Char) :
    (assemble conv input).2 = itemsPh 0 (generateDocxItems conv input) := by
  show (flushParagraph
      ((generateDocxItems conv input).foldl processItem initState)).mathPlaceholders = _
  rw [flushParagraph_mathPlaceholders, foldl_processItem_mathPlaceholders]
  rfl

/-- The runs of the assembled paragraph tree, described item by item. -/
theorem assemble_fst_runs (conv : Conv) (input : List Char) :
    runsOf (assemble conv input).1 = itemsRuns 0 (generateDocxItems conv input) := by
  show runsOf (flushParagraph
      ((generateDocxItems conv input).foldl processItem initState)).paragraphs = _
  have h1 := allRuns_flushParagraph ((generateDocxItems conv input).foldl processItem initState)
  have h2 := flushParagraph_current ((generateDocxItems conv input).foldl processItem initState)
  have h3 := foldl_processItem_runs (generateDocxItems conv input) initState
  simp only [allRuns, h2, List.append_nil] at h1
  rw [h1]
  show allRuns ((generateDocxItems conv input).foldl processItem initState) = _
  rw [h3]
  rfl

theorem mathCount_cons_text (v : List Char) (rest : List ContentItem) :
    mathCount (ContentItem.text v :: rest) = mathCount rest := by
  simp [mathCount, List.filter_cons, ContentItem.isMath]

theorem mathCount_cons_math (o : List Char) (b : Bool) (rest : List ContentItem) :
    mathCount (ContentItem.math o b :: rest) = mathCount rest + 1 := by
  simp [mathCount, List.filter_cons, ContentItem.isMath]

/-- The registered placeholder keys are exactly the consecutive ordinal
tokens, one per math item. -/
theorem itemsPh_keys (items : List ContentItem) :
    ∀ idx, (itemsPh idx items).map Prod.fst =
      (List.range' idx (mathCount items)).map placeholderToken := by
  induction items with
  | nil => intro idx; simp [itemsPh, mathCount]
  | cons it rest ih =>
    intro idx
    match it with
    | .text v => rw [itemsPh, ih, mathCount_cons_text]
    | .math o b =>
      rw [itemsPh, mathCount_cons_math, List.map_cons, ih,
        List.range'_succ idx (mathCount rest) 1, List.map_cons]

theorem itemsPh_length (items : List ContentItem) (idx : Nat) :
    (itemsPh idx items).length = mathCount items := by
  have h := congrArg List.length (itemsPh_keys items idx)
  simpa using h

theorem itemsPh_keys_nodup (items : List ContentItem) (idx : Nat) :
    ((itemsPh idx items).map Prod.fst).Nodup := by
  rw [itemsPh_keys]
  exact ((List.nodup_range' idx (mathCount items)).map
    fun a b hab => placeholderToken_inj hab)

theorem itemsPh_mem_keys {items : List ContentItem} {idx : Nat} {t : List Char}
    (h : t ∈ (itemsPh idx items).map Prod.fst) :
    ∃ j, idx ≤ j ∧ j < idx + mathCount items ∧ t = placeholderToken j := by
  rw [itemsPh_keys] at h
  obtain ⟨j, hj, rfl⟩ := List.mem_map.mp h
  exact ⟨j, by
    have := List.mem_range'_1.mp hj
    omega, by
    have := List.mem_range'_1.mp hj
    omega, rfl⟩

/-- Provenance of a run of the assembled tree: either a cleaned segment of
some text item, or the ordinal token of one math item. -/
theorem mem_itemsRuns {r : List Char} (items : List ContentItem) :
    ∀ idx, r ∈ itemsRuns idx items →
      (∃ v, ContentItem.text v ∈ items ∧ r ∈ textRuns v) ∨
      (∃ j, idx ≤ j ∧ j < idx + mathCount items ∧ r = placeholderToken j) := by
  induction items with
  | nil => intro idx h; simp [itemsRuns] at h
  | cons it rest ih =>
    intro idx h
    rw [itemsRuns] at h
    rcases List.mem_append.mp h with h | h
    · match it with
      | .text v =>
        exact Or.inl ⟨v, by simp, by simpa [itemRuns] using h⟩
      | .math o b =>
        refine Or.inr ⟨idx, le_rfl, ?_, by simpa [itemRuns] using h⟩
        rw [mathCount_cons_math]
        omega
    · rcases ih _ h with ⟨v, hv, hr⟩ | ⟨j, hj1, hj2, hr⟩
      · exact Or.inl ⟨v, by simp [hv], hr⟩
      · refine Or.inr ⟨j, ?_, ?_, hr⟩
        · match it with
          | .text v => simpa [ContentItem.isMath] using hj1
          | .math o b =>
            simp only [ContentItem.isMath, if_pos] at hj1
            omega
        · match it with
          | .text v =>
            rw [mathCount_cons_text]
            simpa [ContentItem.isMath] using hj2
          | .math o b =>
            rw [mathCount_cons_math]
            simp only [ContentItem.isMath, if_pos] at hj2
            omega

/-- Each ordinal token in range appears exactly once among the runs an item
list contributes, provided no cleaned text segment equals a token. -/
theorem itemsRuns_count (items : List ContentItem) :
    ∀ idx i,
      (∀ v, ContentItem.text v ∈ items → ∀ r ∈ textRuns v, r ≠ placeholderToken i) →
      (itemsRuns idx items).count (placeholderToken i) =
        if idx ≤ i ∧ i < idx + mathCount items then 1 else 0 := by
  induction items with
  | nil =>
    intro idx i _
    rw [itemsRuns,
      if_neg (by simp only [mathCount, List.filter_nil, List.length_nil]; omega)]
    rfl
  | cons it rest ih =>
    intro idx i htext
    rw [itemsRuns, List.count_append]
    match it with
    | .text v =>
      have h0 : (itemRuns idx (ContentItem.text v)).count (placeholderToken i) = 0 := by
        refine List.count_eq_zero.mpr fun hmem => ?_
        exact htext v (by simp) _ (by simpa [itemRuns] using hmem) rfl
      rw [h0, ih _ i fun w hw => htext w (by simp [hw]), mathCount_cons_text]
      simp [ContentItem.isMath]
    | .math o b =>
      have hrest := ih (idx + 1) i fun w hw => htext w (by simp [hw])
      have hsing : (itemRuns idx (ContentItem.math o b)).count (placeholderToken i) =
          if i = idx then 1 else 0 := by
        by_cases hi : i = idx
        · subst hi
          simp [itemRuns]
        · have hne : placeholderToken i ≠ placeholderToken idx :=
            fun he => hi (placeholderToken_inj he)
          rw [if_neg hi]
          refine List.count_eq_zero.mpr fun hmem => ?_
          simp only [itemRuns, List.mem_singleton] at hmem
          exact hne hmem
      have hidx : itemsRuns (idx + if (ContentItem.math o b).isMath then 1 else 0) rest =
          itemsRuns (idx + 1) rest := by
        simp [ContentItem.isMath]
      rw [hidx, hsing, hrest, mathCount_cons_math]
      by_cases hi : i = idx
      · subst hi
        rw [if_pos rfl, if_neg (by omega), if_pos (by omega)]
      · rw [if_neg hi]
        by_cases hin : idx + 1 ≤ i ∧ i < idx + 1 + mathCount rest
        · rw [if_pos hin, if_pos (by omega)]
        · rw [if_neg hin, if_neg (by omega)]


/-! ### Substring provenance: every run text traces back into the input -/

/-- A helper for the catch-all arm: prepending the scanned character to the
head part preserves the part-provenance facts. -/
theorem consHead_parts {c : Char} {cs : List Char} :
    (∃ p ps, splitParasAux false cs = p :: ps ∧ (false = false → p <+: cs) ∧
      p <:+: cs ∧ ∀ q ∈ ps, q <:+: cs) →
    ∃ p ps, consHead c (splitParasAux false cs) = p :: ps ∧ p <+: c :: cs ∧
      ∀ q ∈ ps, q <:+: c :: cs := by
  rintro ⟨p, ps, heq, hpref, _, hps⟩
  rw [heq]
  refine ⟨c :: p, ps, rfl, ?_, ?_⟩
  · exact List.cons_prefix_cons.mpr ⟨rfl, hpref rfl⟩
  · exact fun q hq => List.infix_cons (hps q hq)

/-- Shape of `value.split(/\n\n+/)`: the result is nonempty, its head is a
prefix of the input when the scan is not inside a newline run, and every
part is a contiguous piece of the input. -/
theorem splitParasAux_parts :
    ∀ (n : Nat) (v : List Char), v.length ≤ n → ∀ flag,
      ∃ p ps, splitParasAux flag v = p :: ps ∧ (flag = false → p <+: v) ∧
        p <:+: v ∧ ∀ q ∈ ps, q <:+: v := by
  intro n
  induction n with
  | zero =>
    intro v hv flag
    have : v = [] := List.length_eq_zero.mp (Nat.le_zero.mp hv)
    subst this
    exact ⟨[], [], splitParasAux_nil flag, fun _ => List.nil_prefix, List.nil_infix, by simp⟩
  | succ n ih =>
    intro v hv flag
    match v with
    | [] =>
      exact ⟨[], [], splitParasAux_nil flag, fun _ => List.nil_prefix, List.nil_infix, by simp⟩
    | c :: cs =>
      have hcs : cs.length ≤ n := by simp only [List.length_cons] at hv; omega
      match flag with
      | true =>
        by_cases hc : c = '\n'
        · subst hc
          obtain ⟨p, ps, heq, _, hinf, hps⟩ := ih cs hcs true
          refine ⟨p, ps, ?_, fun hco => by simp at hco, List.infix_cons hinf,
            fun q hq => List.infix_cons (hps q hq)⟩
          rw [splitParasAux_true_cons, if_pos rfl]
          exact heq
        · obtain ⟨p, ps, heq, hpref, hq⟩ := consHead_parts (ih cs hcs false)
          refine ⟨p, ps, ?_, fun hco => by simp at hco, hpref.isInfix, hq⟩
          rw [splitParasAux_true_cons, if_neg hc]
          exact heq
      | false =>
        by_cases hc : c = '\n'
        · subst hc
          match cs with
          | [] =>
            obtain ⟨p, ps, heq, hpref, hq⟩ := consHead_parts (ih [] hcs false)
            refine ⟨p, ps, ?_, fun _ => hpref, hpref.isInfix, hq⟩
            rw [splitParasAux_false_single, if_pos rfl]
            exact heq
          | d :: cs2 =>
            by_cases hd : d = '\n'
            · subst hd
              have hcs2 : cs2.length ≤ n := by
                simp only [List.length_cons] at hv; omega
              obtain ⟨p, ps, heq, _, hinf, hps⟩ := ih cs2 hcs2 true
              refine ⟨[], p :: ps, ?_, fun _ => List.nil_prefix, List.nil_infix, ?_⟩
              · rw [splitParasAux_false_cons, if_pos rfl, if_pos rfl, heq]
              · intro q hq
                rcases List.mem_cons.mp hq with h | h
                · exact h ▸ List.infix_cons (List.infix_cons hinf)
                · exact List.infix_cons (List.infix_cons (hps q h))
            · obtain ⟨p, ps, heq, hpref, hq⟩ := consHead_parts (ih (d :: cs2) hcs false)
              refine ⟨p, ps, ?_, fun _ => hpref, hpref.isInfix, hq⟩
              rw [splitParasAux_false_cons, if_pos rfl, if_neg hd]
              exact heq
        · obtain ⟨p, ps, heq, hpref, hq⟩ := consHead_parts (ih cs hcs false)
          refine ⟨p, ps, ?_, fun _ => hpref, hpref.isInfix, hq⟩
          rw [splitParasAux_false_not_nl hc]
          exact heq

theorem splitParas_infix {part v : List Char} (h : part ∈ splitParas v) :
    part <:+: v := by
  obtain ⟨p, ps, heq, _, hinf, hps⟩ := splitParasAux_parts v.length v le_rfl false
  rw [splitParas, heq] at h
  rcases List.mem_cons.mp h with h | h
  · exact h ▸ hinf
  · exact hps part h

theorem src_infix_spanConcat {sp : Span} :
    ∀ l : List Span, sp ∈ l → Span.src sp <:+: spanConcat l := by
  intro l
  induction l with
  | nil => intro h; simp at h
  | cons hd tl ih =>
    intro h
    rcases List.mem_cons.mp h with h | h
    · subst h
      exact ⟨[], spanConcat tl, by simp [spanConcat]⟩
    · obtain ⟨u, w, huw⟩ := ih h
      refine ⟨Span.src hd ++ u, w, ?_⟩
      show Span.src hd ++ u ++ Span.src sp ++ w = spanConcat (hd :: tl)
      rw [spanConcat, List.map_cons, List.flatten_cons]
      rw [show ((List.map Span.src tl).flatten : List Char) = spanConcat tl from rfl,
        ← huw]
      simp [List.append_assoc]

/-- Every span's delimited source is a contiguous piece of the scanned
input. -/
theorem src_infix_segment {sp : Span} {s : List Char} (h : sp ∈ segment s) :
    Span.src sp <:+: s := by
  have := src_infix_spanConcat (segment s) h
  rwa [spanConcat_segment] at this

/-- A text content item always carries the delimited source of its span
(verbatim text, or the delimited formula after a failed conversion). -/
theorem itemOfSpan_text {conv : Conv} {sp : Span} {v : List Char}
    (h : itemOfSpan conv sp = ContentItem.text v) : v = Span.src sp := by
  match sp with
  | .text w => simp [itemOfSpan, Span.src] at h ⊢; exact h.symm
  | .formula body isBlock =>
    rw [itemOfSpan] at h
    split at h
    · exact absurd h (by simp)
    · simp at h
      exact h.symm

/-- The value of every text item of `generateDocx` is a contiguous piece of
the normalized input. -/
theorem text_item_infix {conv : Conv} {input v : List Char}
    (h : ContentItem.text v ∈ generateDocxItems conv input) :
    v <:+: normalizeNewlines input := by
  obtain ⟨sp, hsp, hit⟩ := List.mem_map.mp h
  rw [itemOfSpan_text hit]
  exact src_infix_segment hsp

/-! ### Characters of a placeholder token -/

theorem mem_reprAux {c : Char} :
    ∀ n acc, c ∈ reprAux n acc → c ∈ acc ∨ ∃ d, d < 10 ∧ c = Nat.digitChar d := by
  intro n
  induction n using Nat.strong_induction_on with
  | _ n ih =>
    intro acc h
    by_cases h10 : n < 10
    · rw [reprAux_eq n acc, if_pos h10] at h
      rcases List.mem_cons.mp h with h | h
      · exact Or.inr ⟨n, h10, h⟩
      · exact Or.inl h
    · rw [reprAux_eq n acc, if_neg h10] at h
      have hlt : n / 10 < n := Nat.div_lt_self (by omega) (by norm_num)
      rcases ih _ hlt _ h with h | h
      · rcases List.mem_cons.mp h with h | h
        · exact Or.inr ⟨n % 10, Nat.mod_lt n (by norm_num), h⟩
        · exact Or.inl h
      · exact Or.inr h

theorem mem_placeholderToken {c : Char} {i : Nat} (h : c ∈ placeholderToken i) :
    c ∈ "__MATH_PLACEHOLDER_".toList ∨ (∃ d, d < 10 ∧ c = Nat.digitChar d) ∨
      c ∈ "__".toList := by
  unfold placeholderToken at h
  rcases List.mem_append.mp h with h | h
  · rcases List.mem_append.mp h with h | h
    · exact Or.inl h
    · have hrepr : (Nat.repr i).toList = reprAux i [] := by
        show (Nat.toDigits 10 i).asString.data = _
        rw [show (Nat.toDigits 10 i).asString.data = Nat.toDigits 10 i from rfl]
        exact toDigitsCore_eq_reprAux (i + 1) i [] (by omega)
      rw [hrepr] at h
      rcases mem_reprAux i [] h with h | h
      · simp at h
      · exact Or.inr (Or.inl h)
  · exact Or.inr (Or.inr h)

theorem space_not_mem_placeholderToken (i : Nat) : ' ' ∉ placeholderToken i := by
  intro h
  rcases mem_placeholderToken h with h | ⟨d, hd, he⟩ | h
  · revert h; decide
  · revert he
    interval_cases d <;> decide
  · revert h; decide

theorem newline_not_mem_placeholderToken (i : Nat) : '\n' ∉ placeholderToken i := by
  intro h
  rcases mem_placeholderToken h with h | ⟨d, hd, he⟩ | h
  · revert h; decide
  · revert he
    interval_cases d <;> decide
  · revert h; decide

/-! ### Cleaned parts and tokens -/

theorem mem_cleanPart_space {part : List Char} (h : '\n' ∈ part) :
    ' ' ∈ cleanPart part := by
  have := List.mem_map_of_mem (fun c => if c = '\n' then ' ' else c) h
  simpa [cleanPart] using this

theorem cleanPart_eq_self {part : List Char} (h : '\n' ∉ part) :
    cleanPart part = part := by
  induction part with
  | nil => rfl
  | cons c cs ih =>
    have h1 : c ≠ '\n' := fun he => h (by simp [he])
    have h2 := ih fun hc => h (by simp [hc])
    rw [cleanPart, List.map_cons, if_neg h1]
    rw [cleanPart] at h2
    rw [h2]

/-- A space-free, newline-free string occurs inside a cleaned part only if
it occurs inside the part itself. -/
theorem infix_of_infix_cleanPart {t part : List Char} (hsp : ' ' ∉ t)
    (h : t <:+: cleanPart part) : t <:+: part := by
  obtain ⟨u, w, huw⟩ := h
  have h1 : List.map (fun c => if c = '\n' then ' ' else c) part = u ++ (t ++ w) := by
    rw [← List.append_assoc]
    exact huw.symm
  obtain ⟨a, bc, hpart, hu, hbc⟩ := List.map_eq_append_iff.mp h1
  obtain ⟨b, c2, hbc2, hb, hc⟩ := List.map_eq_append_iff.mp hbc
  have hb2 : cleanPart b = t := hb
  have hnb : '\n' ∉ b := by
    intro hnl
    exact hsp (hb2 ▸ mem_cleanPart_space hnl)
  have hbt : b = t := by rw [← hb2, cleanPart_eq_self hnb]
  exact ⟨a, c2, by rw [hpart, hbc2, hbt, List.append_assoc]⟩

/-- A token equal to a cleaned part is the part itself (tokens contain
neither spaces nor newlines). -/
theorem cleanPart_eq_token {part t : List Char} (hsp : ' ' ∉ t)
    (h : cleanPart part = t) : part = t := by
  have hnb : '\n' ∉ part := by
    intro hnl
    exact hsp (h ▸ mem_cleanPart_space hnl)
  rw [← h, cleanPart_eq_self hnb]

/-! ### The substitution pass on the paragraph tree -/

/-- The replacement a single run undergoes across all substitution steps. -/
def substAll (phs : List (List Char × List Char)) (r : List Char) : List Char :=
  phs.foldl (fun r e => if r = e.1 then e.2 else r) r

theorem substAll_cons (e : List Char × List Char) (phs : List (List Char × List Char))
    (r : List Char) :
    substAll (e :: phs) r = substAll phs (if r = e.1 then e.2 else r) := rfl

theorem substAll_nil (r : List Char) : substAll [] r = r := rfl

theorem runsOf_map_children (f : List Char → List Char) (paras : List Para) :
    runsOf (paras.map fun p => ⟨p.children.map f, p.alignment⟩) =
      (runsOf paras).map f := by
  induction paras with
  | nil => rfl
  | cons p ps ih => simp [runsOf, List.map_append] at ih ⊢; rw [ih]

theorem runsOf_substituteRuns (phs : List (List Char × List Char)) :
    ∀ paras : List Para,
      runsOf (substituteRuns paras phs) = (runsOf paras).map (substAll phs) := by
  induction phs with
  | nil =>
    intro paras
    show runsOf paras = _
    rw [show substAll [] = id from rfl, List.map_id]
  | cons e phs ih =>
    intro paras
    show runsOf (substituteRuns
      (paras.map fun p =>
        ⟨p.children.map (fun r => if r = e.1 then e.2 else r), p.alignment⟩) phs) = _
    rw [ih, runsOf_map_children, List.map_map]
    rfl

/-- A run equal to no key is never replaced. -/
theorem substAll_id {r : List Char} :
    ∀ phs : List (List Char × List Char), (∀ e ∈ phs, r ≠ e.1) → substAll phs r = r := by
  intro phs
  induction phs with
  | nil => intro _; rfl
  | cons e phs ih =>
    intro h
    rw [substAll_cons, if_neg (h e (by simp))]
    exact ih fun e2 he2 => h e2 (by simp [he2])

/-- After all substitution steps, a run that either is already free of every
token or is itself one of the keys contains no registered token: keys are
replaced by their fragments and fragments contain no token. -/
theorem substAll_safe (full : List (List Char × List Char)) :
    ∀ phs : List (List Char × List Char), (∀ e ∈ phs, e ∈ full) →
      ∀ r : List Char,
        ((∀ t ∈ full.map Prod.fst, ¬ t <:+: r) ∨ r ∈ phs.map Prod.fst) →
        (∀ e ∈ full, ∀ t ∈ full.map Prod.fst, ¬ t <:+: e.2) →
        ∀ t ∈ full.map Prod.fst, ¬ t <:+: substAll phs r := by
  intro phs
  induction phs with
  | nil =>
    intro _ r hr hB t ht
    rcases hr with hr | hr
    · exact hr t ht
    · simp at hr
  | cons e rest ih =>
    intro hsub r hr hB t ht
    rw [substAll_cons]
    by_cases hre : r = e.1
    · rw [if_pos hre]
      refine ih (fun e2 he2 => hsub e2 (by simp [he2])) e.2 ?_ hB t ht
      left
      exact fun t2 ht2 => hB e (hsub e (by simp)) t2 ht2
    · rw [if_neg hre]
      refine ih (fun e2 he2 => hsub e2 (by simp [he2])) r ?_ hB t ht
      rcases hr with hr | hr
      · exact Or.inl hr
      · right
        rcases List.mem_map.mp hr with ⟨e2, he2, heq⟩
        rcases List.mem_cons.mp he2 with h | h
        · exact absurd (heq.symm.trans (congrArg Prod.fst h)) hre
        · exact List.mem_map.mpr ⟨e2, h, heq⟩

/-! ### Remaining helper lemmas for the claims -/

/-- The plain-text content of an input: its text spans, concatenated. -/
def plainTextContent (input : List Char) : List Char :=
  ((segment (normalizeNewlines input)).map fun sp =>
    match sp with
    | Span.text v => v
    | Span.formula _ _ => []).flatten

theorem mem_textRuns {r v : List Char} (h : r ∈ textRuns v) :
    ∃ part, part ∈ splitParas v ∧ r = cleanPart part := by
  rw [textRuns] at h
  obtain ⟨hmem, _⟩ := List.mem_filter.mp h
  obtain ⟨part, hp, he⟩ := List.mem_map.mp hmem
  exact ⟨part, hp, he.symm⟩

/-- No registered token occurs inside any cleaned text run, provided no
token occurs inside the normalized input. -/
theorem token_not_infix_textRun {conv : Conv} {input : List Char}
    (hin : ∀ t ∈ (assemble conv input).2.map Prod.fst, ¬ t <:+: normalizeNewlines input)
    {t : List Char} (ht : t ∈ (assemble conv input).2.map Prod.fst)
    {v r : List Char} (hv : ContentItem.text v ∈ generateDocxItems conv input)
    (hr : r ∈ textRuns v) : ¬ t <:+: r := by
  intro hinf
  have ht2 := ht
  rw [assemble_snd] at ht2
  obtain ⟨j, _, _, htj⟩ := itemsPh_mem_keys ht2
  subst htj
  obtain ⟨part, hpart, hrc⟩ := mem_textRuns hr
  subst hrc
  have h1 : placeholderToken j <:+: part :=
    infix_of_infix_cleanPart (space_not_mem_placeholderToken j) hinf
  have h2 : part <:+: v := splitParas_infix hpart
  have h3 : v <:+: normalizeNewlines input := text_item_infix hv
  exact hin _ ht ((h1.trans h2).trans h3)

theorem itemsPh_nil_of_no_math (items : List ContentItem)
    (h : ∀ it ∈ items, it.isMath = false) : ∀ idx, itemsPh idx items = [] := by
  induction items with
  | nil => intro idx; rfl
  | cons it rest ih =>
    intro idx
    match it with
    | .text v =>
      rw [itemsPh]
      exact ih (fun it2 h2 => h it2 (by simp [h2])) idx
    | .math o b =>
      exact absurd (h (ContentItem.math o b) (by simp)) (by simp [ContentItem.isMath])

theorem generateDocxItems_no_math {conv : Conv} {input : List Char}
    (h : ∀ sp ∈ segment (normalizeNewlines input), sp.isFormula = false) :
    ∀ it ∈ generateDocxItems conv input, it.isMath = false := by
  intro it hit
  obtain ⟨sp, hsp, heq⟩ := List.mem_map.mp hit
  match sp with
  | .text v =>
    rw [← heq]
    simp [itemOfSpan, ContentItem.isMath]
  | .formula b blk => exact absurd (h _ hsp) (by simp [Span.isFormula])

/-! ### The claims -/

/-- C1: for every input string, concatenating, in order, the text pieces
and the original delimited source of every formula match produced by the
segmentation pass reproduces the input exactly; and when every conversion
fails, the degraded text items (each holding its verbatim matched text)
still concatenate to the input. -/
theorem segment_round_trip (s : List Char) :
    spanConcat (segment s) = s ∧
    (((segment s).map (itemOfSpan fun _ _ => none)).map fun it =>
      match it with
      | ContentItem.text v => v
      | ContentItem.math o _ => o).flatten = s := by
  refine ⟨spanConcat_segment s, ?_⟩
  rw [List.map_map]
  have hcomp : ((fun it =>
      match it with
      | ContentItem.text v => v
      | ContentItem.math o _ => o) ∘ itemOfSpan fun _ _ => none) = Span.src := by
    funext sp
    match sp with
    | .text v => rfl
    | .formula b blk => rfl
  rw [hcomp]
  exact spanConcat_segment s

/-- C2 (counterexample): an input that literally contains the reserved
token pattern makes the registered token a substring of the input's
plain-text content, so the no-collision claim fails. -/
theorem placeholder_collision_counterexample :
    (assemble (fun _ _ => some "<m:oMath/>".toList)
        "__MATH_PLACEHOLDER_0__ $$x$$".toList).2.map Prod.fst = [placeholderToken 0] ∧
    placeholderToken 0 <:+:
      plainTextContent "__MATH_PLACEHOLDER_0__ $$x$$".toList := by
  constructor
  · decide
  · exact ⟨[], [' '], by decide⟩

/-- C2 (amended): placeholder tokens are generated sequentially from the
reserved ordinal pattern, one per registered math item; the code contains
no guard against the pattern occurring in user text (see the
counterexample). -/
theorem placeholder_tokens_reserved_sequential (conv : Conv) (input : List Char) :
    (assemble conv input).2.map Prod.fst =
      (List.range (mathCount (generateDocxItems conv input))).map placeholderToken := by
  rw [assemble_snd, itemsPh_keys, List.range_eq_range']

/-- C3 (counterexample): when the input text itself contains the reserved
token pattern as a paragraph, the token appears as the text of two runs of
the intermediate tree, refuting "each token occurs in exactly one run". -/
theorem placeholder_occurrence_counterexample :
    (assemble (fun _ _ => some "<m:oMath/>".toList)
        "__MATH_PLACEHOLDER_0__\n\n$$x$$".toList).2.map Prod.fst = [placeholderToken 0] ∧
    (runsOf (assemble (fun _ _ => some "<m:oMath/>".toList)
        "__MATH_PLACEHOLDER_0__\n\n$$x$$".toList).1).count (placeholderToken 0) = 2 := by
  constructor <;> decide

/-- C3 (amended): for every input whose assembly registers N math items,
the placeholder map holds N pairwise-distinct tokens; and provided no
registered token occurs inside the normalized input text nor inside any
converted math fragment, each token is the full text of exactly one run of
the intermediate paragraph tree, and after the substitution pass replaces
every token-run by its fragment no registered token occurs inside any run
of the resulting tree. -/
theorem placeholder_map_distinct_and_substituted (conv : Conv) (input : List Char)
    (hin : ∀ t ∈ (assemble conv input).2.map Prod.fst,
      ¬ t <:+: normalizeNewlines input)
    (hfrag : ∀ e ∈ (assemble conv input).2,
      ∀ t ∈ (assemble conv input).2.map Prod.fst, ¬ t <:+: e.2) :
    (assemble conv input).2.length = mathCount (generateDocxItems conv input) ∧
    ((assemble conv input).2.map Prod.fst).Nodup ∧
    (∀ t ∈ (assemble conv input).2.map Prod.fst,
      (runsOf (assemble conv input).1).count t = 1) ∧
    (∀ t ∈ (assemble conv input).2.map Prod.fst,
      ∀ r ∈ runsOf (substituteRuns (assemble conv input).1 (assemble conv input).2),
        ¬ t <:+: r) := by
  refine ⟨?_, ?_, ?_, ?_⟩
  · rw [assemble_snd]
    exact itemsPh_length _ _
  · rw [assemble_snd]
    exact itemsPh_keys_nodup _ _
  · intro t ht
    have ht2 := ht
    rw [assemble_snd] at ht2
    obtain ⟨j, hj0, hjN, rfl⟩ := itemsPh_mem_keys ht2
    rw [assemble_fst_runs,
      itemsRuns_count (generateDocxItems conv input) 0 j
        (fun v hv r hr heq =>
          token_not_infix_textRun hin ht hv hr (by rw [heq])),
      if_pos ⟨by omega, by omega⟩]
  · intro t ht r hr
    rw [runsOf_substituteRuns] at hr
    obtain ⟨r0, hr0, rfl⟩ := List.mem_map.mp hr
    refine substAll_safe (assemble conv input).2 (assemble conv input).2
      (fun e he => he) r0 ?_ hfrag t ht
    have hr2 := hr0
    rw [assemble_fst_runs] at hr2
    rcases mem_itemsRuns _ _ hr2 with ⟨v, hv, hrt⟩ | ⟨j, hj0, hjN, rfl⟩
    · exact Or.inl fun t2 ht2 hinf => token_not_infix_textRun hin ht2 hv hrt hinf
    · right
      rw [assemble_snd, itemsPh_keys]
      exact List.mem_map.mpr ⟨j, List.mem_range'_1.mpr ⟨by omega, by omega⟩, rfl⟩

/-- C4: a formula span whose conversion fails yields, at the same position,
a text content item holding exactly the original delimited substring; the
assembler is total, so the failure never propagates. -/
theorem failed_conversion_degrades_to_text (conv : Conv) (input : List Char)
    (i : Nat) (body : List Char) (isBlock : Bool)
    (hsp : (segment (normalizeNewlines input))[i]? = some (Span.formula body isBlock))
    (hfail : conv body isBlock = none) :
    (generateDocxItems conv input)[i]? =
      some (ContentItem.text (Span.src (Span.formula body isBlock))) := by
  rw [generateDocxItems, List.getElem?_map, hsp]
  simp [itemOfSpan, hfail]

theorem failed_conversion_degrades_to_text_witness :
    (segment (normalizeNewlines "$x$".toList))[0]? = some (Span.formula ['x'] false) ∧
    (generateDocxItems (fun _ _ => none) "$x$".toList)[0]? =
      some (ContentItem.text (Span.src (Span.formula ['x'] false))) :=
  ⟨by decide,
    failed_conversion_degrades_to_text (fun _ _ => none) "$x$".toList 0 ['x'] false
      (by decide) rfl⟩

/-- C5: on `"pre\n\n$$x$$\n\npost"`, with the conversion of `x`
succeeding, assembly produces exactly three paragraphs: left-aligned
`"pre"`, a centered paragraph holding only the placeholder run, and
left-aligned `"post"`; the blank lines produce no empty paragraph. -/
theorem block_math_isolation (conv : Conv) (w : List Char)
    (hconv : conv ['x'] true = some w) :
    (assemble conv "pre\n\n$$x$$\n\npost".toList).1 =
      [⟨["pre".toList], Alignment.left⟩, ⟨[placeholderToken 0], Alignment.center⟩,
        ⟨["post".toList], Alignment.left⟩] := by
  have hitems : generateDocxItems conv "pre\n\n$$x$$\n\npost".toList =
      [ContentItem.text "pre\n\n".toList, ContentItem.math w true,
        ContentItem.text "\n\npost".toList] := by
    rw [generateDocxItems, normalizeNewlines_eq_self (by decide),
      show segment "pre\n\n$$x$$\n\npost".toList =
        [Span.text "pre\n\n".toList, Span.formula ['x'] true,
          Span.text "\n\npost".toList] from by decide]
    simp [itemOfSpan, hconv]
  show (flushParagraph
    ((generateDocxItems conv "pre\n\n$$x$$\n\npost".toList).foldl
      processItem initState)).paragraphs = _
  rw [hitems]
  rfl

theorem block_math_isolation_witness :
    ((fun _ _ => some ['W'] : Conv) ['x'] true = some ['W']) ∧
    (assemble (fun _ _ => some ['W']) "pre\n\n$$x$$\n\npost".toList).1 =
      [⟨["pre".toList], Alignment.left⟩, ⟨[placeholderToken 0], Alignment.center⟩,
        ⟨["post".toList], Alignment.left⟩] :=
  ⟨rfl, block_math_isolation (fun _ _ => some ['W']) ['W'] rfl⟩

/-- C6: `"$$a$$ and $b$"` segments into a block formula `a`, the literal
text `" and "`, and an inline formula `b`; the doubled marker is matched as
one block formula. -/
theorem balanced_marker_segmentation :
    segment "$$a$$ and $b$".toList =
      [Span.formula ['a'] true, Span.text " and ".toList, Span.formula ['b'] false] := by
  decide

/-- C7: `"$a$ and $b"` segments into an inline formula `a` followed by the
literal text `" and $b"`; the unmatched trailing marker stays literal. -/
theorem odd_marker_segmentation :
    segment "$a$ and $b".toList =
      [Span.formula ['a'] false, Span.text " and $b".toList] := by
  decide

/-- C8: an input with zero formula spans leaves the placeholder map empty,
and export returns the document builder's output unchanged — the result
does not depend on the post-processing function at all. -/
theorem no_math_fast_path {β : Type} (builder : List Para → β)
    (post : β → List (List Char × List Char) → β) (conv : Conv) (input : List Char)
    (h : ∀ sp ∈ segment (normalizeNewlines input), sp.isFormula = false) :
    (assemble conv input).2 = [] ∧
    exportDocx builder post conv input = builder (assemble conv input).1 := by
  have hmap : (assemble conv input).2 = [] := by
    rw [assemble_snd]
    exact itemsPh_nil_of_no_math _ (generateDocxItems_no_math h) 0
  refine ⟨hmap, ?_⟩
  rw [exportDocx, if_pos (by rw [hmap]; rfl)]

theorem no_math_fast_path_witness :
    (∀ sp ∈ segment (normalizeNewlines "hello world".toList), sp.isFormula = false) ∧
    (assemble (fun _ _ => none) "hello world".toList).2 = [] ∧
    exportDocx (fun ps => ps) (fun _ _ => []) (fun _ _ => none) "hello world".toList =
      (fun ps => ps) (assemble (fun _ _ => none) "hello world".toList).1 :=
  ⟨by decide,
    no_math_fast_path (fun ps => ps) (fun _ _ => []) (fun _ _ => none)
      "hello world".toList (by decide)⟩

/-- C9: the context-menu unescaping is a left inverse of the `data-latex`
attribute escaping: the two pure string functions compose to the
identity. -/
theorem escape_unescape_round_trip (s : List Char) :
    unescapeDataLatex (escapeDataLatex s) = s := by
  rw [escapeDataLatex_eq_expandMap]
  unfold unescapeDataLatex
  rw [unquot_pass, unlt_pass, ungt_pass, unamp_pass]

/-- C10: on an input with no formula match, the whole-document clipboard
transformation is the identity: no escaping, no newline conversion. -/
theorem copy_no_match_identity (conv : Conv) (input : List Char)
    (h : ∀ sp ∈ segment input, sp.isFormula = false) :
    handleCopyResult conv input = input := by
  rw [handleCopyResult]
  have hmap : (segment input).map (fun sp =>
      match sp with
      | Span.text v => v
      | Span.formula body isBlock =>
        match conv body isBlock with
        | some mathml => mathml
        | none => Span.src (Span.formula body isBlock)) =
      (segment input).map Span.src := by
    refine List.map_congr_left fun sp hsp => ?_
    match sp with
    | .text v => rfl
    | .formula b blk => exact absurd (h _ hsp) (by simp [Span.isFormula])
  rw [hmap]
  exact spanConcat_segment input

theorem copy_no_match_identity_witness :
    (∀ sp ∈ segment "hello\nworld".toList, sp.isFormula = false) ∧
    handleCopyResult (fun _ _ => some ['M']) "hello\nworld".toList =
      "hello\nworld".toList :=
  ⟨by decide, copy_no_match_identity (fun _ _ => some ['M']) "hello\nworld".toList
    (by decide)⟩

theorem placeholder_map_distinct_and_substituted_witness :
    (assemble (fun _ _ => some "<m:oMath/>".toList) "a $$x$$ b $y$".toList).2.length =
      mathCount (generateDocxItems (fun _ _ => some "<m:oMath/>".toList)
        "a $$x$$ b $y$".toList) ∧
    ((assemble (fun _ _ => some "<m:oMath/>".toList)
      "a $$x$$ b $y$".toList).2.map Prod.fst).Nodup ∧
    (∀ t ∈ (assemble (fun _ _ => some "<m:oMath/>".toList)
        "a $$x$$ b $y$".toList).2.map Prod.fst,
      (runsOf (assemble (fun _ _ => some "<m:oMath/>".toList)
        "a $$x$$ b $y$".toList).1).count t = 1) ∧
    (∀ t ∈ (assemble (fun _ _ => some "<m:oMath/>".toList)
        "a $$x$$ b $y$".toList).2.map Prod.fst,
      ∀ r ∈ runsOf (substituteRuns
        (assemble (fun _ _ => some "<m:oMath/>".toList) "a $$x$$ b $y$".toList).1
        (assemble (fun _ _ => some "<m:oMath/>".toList) "a $$x$$ b $y$".toList).2),
        ¬ t <:+: r) :=
  placeholder_map_distinct_and_substituted (fun _ _ => some "<m:oMath/>".toList)
    "a $$x$$ b $y$".toList (by decide) (by decide)

end MathmlConv
